import Mathlib

/-!
Shallow embedding of `construct_sampler` from `aemcmc/basic.py`, the
sampler-synthesis orchestrator.  Python dictionaries are modelled as
association lists with Python `dict` insertion semantics, Aesara graph
nodes as a symbolic expression type whose variables carry a numeric
identity, and the external collaborators (`construct_ir_fgraph`,
`SamplerTracker` discovery, `expand_subsumptions`) as parameters.
-/

set_option autoImplicit false

/-- Association-list lookup, first match wins.  Models Python `dict`
lookup; keys in our dictionaries are kept unique by `insertA`. -/
def lookupA {α β : Type} [DecidableEq α] : List (α × β) → α → Option β
  | [], _ => none
  | (k, v) :: t, x => if k = x then some v else lookupA t x

/-- Association-list insert with Python `dict` semantics: overwriting an
existing key keeps its position, a new key is appended at the end. -/
def insertA {α β : Type} [DecidableEq α] : List (α × β) → α → β → List (α × β)
  | [], k, v => [(k, v)]
  | (k0, v0) :: t, k, v =>
      if k0 = k then (k0, v) :: t else (k0, v0) :: insertA t k v

/-- Model of Python `d.update(kvs)`: later pairs win. -/
def updDict {α β : Type} [DecidableEq α] (d : List (α × β)) (kvs : List (α × β)) :
    List (α × β) :=
  kvs.foldl (fun d p => insertA d p.1 p.2) d

/-- Model of a Python dict comprehension built from a list of pairs. -/
def dictOf {α β : Type} [DecidableEq α] (kvs : List (α × β)) : List (α × β) :=
  updDict [] kvs

/-- Symbolic graph node (Aesara `Variable`): a variable identified by a
numeric identity, a constant, or an application node.  Substitution and
comparison are by variable identity. -/
inductive Expr : Type where
  | var : Nat → Expr
  | cst : Nat → Expr
  | app : Expr → Expr → Expr
deriving DecidableEq, Repr

/-- Model of `sfgraph.replace_all(list(posterior_sample_steps.items()),
import_missing=True)` acting on one output of the isolated subgraph:
every occurrence of a table key node (the random-variable nodes,
`Expr.var` leaves) is replaced by its mapped value. -/
def substVar (t : List (Nat × Expr)) : Expr → Expr
  | .var i => (lookupA t i).getD (.var i)
  | .cst c => .cst c
  | .app f a => .app (substVar t f) (substVar t a)

/-- Subterm occurrence: `occursB p e` holds when `p` occurs inside `e`. -/
def occursB (p : Expr) : Expr → Bool
  | .var i => decide (p = .var i)
  | .cst c => decide (p = .cst c)
  | .app f a => decide (p = .app f a) || occursB p f || occursB p a

/-- Sampler candidate registered by a discovery rewrite: the
`(step_desc, step, updates)` triple stored in `rvs_to_samplers`. -/
structure Candidate : Type where
  desc : Nat
  step : Expr
  updates : List (Expr × Expr)
deriving DecidableEq, Repr

/-- Data of the canonical graph after IR construction and the discovery
rewrite pass: `fgraph.outputs` (random-variable node identities), the
re-expressed `obs_rvs_to_values` mapping, and the tracker's
`rvs_to_samplers` table. -/
structure IRGraph : Type where
  outputs : List Nat
  obs : List (Nat × Expr)
  samplers : List (Nat × List Candidate)
deriving DecidableEq, Repr

/-- Mutable state of the per-node processing loop of `construct_sampler`:
`posterior_sample_steps`, `posterior_updates`, `rvs_without_samplers`
(a set, modelled as a duplicate-free list), and the tracker's candidate
lists (mutated by `rv_steps.pop()`). -/
structure LoopState : Type where
  steps : List (Nat × Expr)
  updates : List (Expr × Expr)
  missing : List Nat
  tracker : List (Nat × List Candidate)
deriving DecidableEq, Repr

/-- One iteration of the `for rv in fgraph.outputs` loop.  Observed
nodes are skipped; a node with no remaining candidates is added to
`rvs_without_samplers`; otherwise the last-registered candidate is
popped off the tracker's list, its step and update pairs are isolated,
substituted through `posterior_sample_steps` and normalized (the
external `expand_subsumptions.rewrite`, modelled by `nz` applied to
each subgraph output), the resolved step is written back into the
table, and the resolved updates are merged into `posterior_updates`. -/
def processRV (obs : List (Nat × Expr)) (nz : Expr → Expr) (st : LoopState) (rv : Nat) :
    LoopState :=
  if (lookupA obs rv).isSome then st
  else
    let cands := (lookupA st.tracker rv).getD []
    match cands.getLast? with
    | none =>
        { st with missing := if rv ∈ st.missing then st.missing else st.missing ++ [rv] }
    | some c =>
        let tracker1 := insertA st.tracker rv cands.dropLast
        let step1 := nz (substVar st.steps c.step)
        let updates1 :=
          c.updates.map fun p => (nz (substVar st.steps p.1), nz (substVar st.steps p.2))
        { steps := insertA st.steps rv step1
          updates := updDict st.updates updates1
          missing := st.missing
          tracker := tracker1 }

/-- Latent output nodes:
`tuple(rv for rv in fgraph.outputs if rv not in obs_rvs_to_values)`. -/
def randomVars (G : IRGraph) : List Nat :=
  G.outputs.filter fun rv => (lookupA G.obs rv).isNone

/-- Fresh initial-value placeholders:
`{rv: rv.clone() for rv in random_vars}`, with `rv.clone()` modelled by
the fresh-symbol source `clone`. -/
def rvsToInitVals (G : IRGraph) (clone : Nat → Nat) : List (Nat × Expr) :=
  dictOf ((randomVars G).map fun rv => (rv, Expr.var (clone rv)))

/-- Initial `posterior_sample_steps`: a copy of `rvs_to_init_vals`
updated with `obs_rvs_to_values`, so that references to observed
variables inside any step resolve directly to their observed values. -/
def initSteps (G : IRGraph) (clone : Nat → Nat) : List (Nat × Expr) :=
  updDict (rvsToInitVals G clone) G.obs

/-- Loop state at entry of the processing loop. -/
def initState (G : IRGraph) (clone : Nat → Nat) : LoopState :=
  { steps := initSteps G clone, updates := [], missing := [], tracker := G.samplers }

/-- Loop state after the whole processing loop. -/
def finState (G : IRGraph) (clone : Nat → Nat) (nz : Expr → Expr) : LoopState :=
  G.outputs.foldl (processRV G.obs nz) (initState G clone)

/-- Loop state after the first `k` iterations of the processing loop. -/
def stAfter (G : IRGraph) (clone : Nat → Nat) (nz : Expr → Expr) (k : Nat) : LoopState :=
  (G.outputs.take k).foldl (processRV G.obs nz) (initState G clone)

/-- The sampler-synthesis orchestrator `construct_sampler`, as a function
of the post-discovery graph data `G`, the fresh-placeholder source
`clone` (modelling `rv.clone()`), the external normalizer `nz`
(modelling `expand_subsumptions.rewrite`) and the identity map `nto`
(modelling `new_to_old_rvs`).  The failure raise (`NotImplementedError`
in the code, the spec's `MissingSamplerError`) is `Except.error`
carrying `rvs_without_samplers`; success returns the translated step
mapping, the accumulated `posterior_updates` and the translated
initial-value mapping. -/
def constructSampler (G : IRGraph) (clone : Nat → Nat) (nz : Expr → Expr) (nto : Nat → Nat) :
    Except (List Nat) (List (Nat × Expr) × List (Expr × Expr) × List (Nat × Expr)) :=
  let fin := finState G clone nz
  if fin.missing = [] then
    .ok
      (dictOf ((fin.steps.filter fun p => (lookupA G.obs p.1).isNone).map
          fun p => (nto p.1, p.2)),
       fin.updates,
       dictOf ((rvsToInitVals G clone).map fun p => (nto p.1, p.2)))
  else .error fin.missing


/-- Caller-visible mutable state threaded through one call of
`construct_sampler`: the caller's `obs_rvs_to_values` dictionary and a
fresh-symbol counter standing for the random stream `srng`. -/
structure CallState : Type where
  callerObs : List (Nat × Expr)
  fresh : Nat
deriving DecidableEq, Repr

/-- Modelled from the spec: the Graph IR Builder together with the
discovery pass (`construct_ir_fgraph`, the `SamplerTracker` attachment
and the `sampler_rewrites_db.query("+basic")` rewrite), whose code
lives outside `src/`.  `build` reads the caller's observed mapping,
allocates canonical nodes from the fresh counter, and returns the
post-discovery graph data, the new-to-old identity map and the
advanced counter; per the spec it converts the model into a fresh
canonical graph and returns a re-expressed observed mapping. -/
structure IRBuilder : Type where
  build : List (Nat × Expr) → Nat → IRGraph × (Nat → Nat) × Nat

/-- The full call `construct_sampler(obs_rvs_to_values, srng)` with the
caller-visible state threaded explicitly: the local name is rebound to
the re-expressed mapping returned by the builder, the caller's
dictionary is only read, and the fresh initial-value placeholders are
drawn from the advanced counter. -/
def constructSamplerCall (irb : IRBuilder) (nz : Expr → Expr) (s : CallState) :
    Except (List Nat) (List (Nat × Expr) × List (Expr × Expr) × List (Nat × Expr)) ×
      CallState :=
  let b := irb.build s.callerObs s.fresh
  let G := b.1
  let nto := b.2.1
  let f1 := b.2.2
  let clone := fun rv => f1 + rv + 1
  (constructSampler G clone nz nto,
   { callerObs := s.callerObs
     fresh := G.outputs.foldl (fun a rv => max a (f1 + rv + 1)) f1 })

/-- Modelled from the spec: step 7 of the algorithm reads, of all three
mappings, "translate ... back to original (pre-canonicalization)
variable identities using the Graph IR Builder's identity maps".
Applied to an update-mapping key node (a variable), such a translation
renames the variable identity through the new-to-old map.  This
definition follows the spec's words and exists only to be compared
with what `construct_sampler` actually returns. -/
def ntoKeyExpr (nto : Nat → Nat) : Expr → Expr
  | .var i => .var (nto i)
  | .cst c => .cst c
  | .app f a => .app (ntoKeyExpr nto f) (ntoKeyExpr nto a)

/-- Modelled from the spec: the update mapping translated back to
original identities, per step 7 of the spec's algorithm. -/
def translateUpdatesSpec (nto : Nat → Nat) (u : List (Expr × Expr)) : List (Expr × Expr) :=
  u.map fun p => (ntoKeyExpr nto p.1, p.2)

/-!
Basic lemmas about the dictionary model.
-/

theorem lookupA_eq_none_of_not_mem {α β : Type} [DecidableEq α] (l : List (α × β)) (x : α)
    (h : x ∉ l.map Prod.fst) : lookupA l x = none := by
  induction l with
  | nil => rfl
  | cons p t ih =>
      simp only [List.map_cons, List.mem_cons] at h
      push_neg at h
      simp only [lookupA, ih h.2]
      rw [if_neg fun he => h.1 he.symm]

theorem mem_keys_of_lookupA_isSome {α β : Type} [DecidableEq α] (l : List (α × β)) (x : α)
    (h : (lookupA l x).isSome) : x ∈ l.map Prod.fst := by
  by_contra hx
  rw [lookupA_eq_none_of_not_mem l x hx] at h
  simp at h

theorem lookupA_insertA {α β : Type} [DecidableEq α] (l : List (α × β)) (k : α) (v : β)
    (x : α) : lookupA (insertA l k v) x = if k = x then some v else lookupA l x := by
  induction l with
  | nil => simp [insertA, lookupA]
  | cons p t ih =>
      obtain ⟨k0, v0⟩ := p
      by_cases h0 : k0 = k
      · subst h0
        simp only [insertA, if_pos rfl, lookupA]
        by_cases hx : k0 = x <;> simp [hx]
      · simp only [insertA, if_neg h0, lookupA]
        by_cases hx : k0 = x
        · subst hx
          have hne : ¬ k = k0 := fun h => h0 h.symm
          simp [hne]
        · simp [hx, ih]

theorem keys_insertA_subset {α β : Type} [DecidableEq α] (l : List (α × β)) (k : α) (v : β) :
    ((insertA l k v).map Prod.fst) = if k ∈ l.map Prod.fst then l.map Prod.fst
      else l.map Prod.fst ++ [k] := by
  induction l with
  | nil => simp [insertA]
  | cons p t ih =>
      obtain ⟨k0, v0⟩ := p
      by_cases h0 : k0 = k
      · subst h0
        simp [insertA]
      · have h0' : ¬ k = k0 := fun h => h0 h.symm
        simp only [insertA, if_neg h0, List.map_cons, List.mem_cons, ih]
        by_cases hm : k ∈ t.map Prod.fst
        · simp [hm, h0']
        · simp [hm, h0']

theorem keysNodup_insertA {α β : Type} [DecidableEq α] (l : List (α × β)) (k : α) (v : β)
    (h : (l.map Prod.fst).Nodup) : ((insertA l k v).map Prod.fst).Nodup := by
  rw [keys_insertA_subset]
  by_cases hm : k ∈ l.map Prod.fst
  · simpa [hm]
  · rw [if_neg hm, List.nodup_append]
    refine ⟨h, List.nodup_singleton k, ?_⟩
    intro a ha hak
    simp only [List.mem_singleton] at hak
    subst hak
    exact hm ha

theorem lookupA_isSome_insertA {α β : Type} [DecidableEq α] (l : List (α × β)) (k : α)
    (v : β) (x : α) (h : (lookupA l x).isSome) : (lookupA (insertA l k v) x).isSome := by
  rw [lookupA_insertA]
  by_cases hk : k = x <;> simp [hk, h]

theorem lookupA_updDict_of_none {α β : Type} [DecidableEq α] (kvs d : List (α × β)) (x : α)
    (h : lookupA kvs x = none) : lookupA (updDict d kvs) x = lookupA d x := by
  induction kvs generalizing d with
  | nil => rfl
  | cons p t ih =>
      obtain ⟨k, v⟩ := p
      simp only [lookupA] at h
      by_cases hk : k = x
      · simp [hk] at h
      · rw [if_neg hk] at h
        simp only [updDict, List.foldl_cons]
        rw [show (List.foldl (fun d p => insertA d p.1 p.2) (insertA d k v) t)
              = updDict (insertA d k v) t from rfl, ih (insertA d k v) h,
            lookupA_insertA, if_neg hk]

theorem lookupA_updDict_of_some {α β : Type} [DecidableEq α] (kvs d : List (α × β)) (x : α)
    (v : β) (hnd : (kvs.map Prod.fst).Nodup) (h : lookupA kvs x = some v) :
    lookupA (updDict d kvs) x = some v := by
  induction kvs generalizing d with
  | nil => simp [lookupA] at h
  | cons p t ih =>
      obtain ⟨k, w⟩ := p
      simp only [List.map_cons, List.nodup_cons] at hnd
      simp only [lookupA] at h
      simp only [updDict, List.foldl_cons]
      by_cases hk : k = x
      · subst hk
        rw [if_pos rfl] at h
        have hnone : lookupA t k = none :=
          lookupA_eq_none_of_not_mem t k hnd.1
        rw [show (List.foldl (fun d p => insertA d p.1 p.2) (insertA d k w) t)
              = updDict (insertA d k w) t from rfl,
            lookupA_updDict_of_none t (insertA d k w) k hnone,
            lookupA_insertA, if_pos rfl]
        simpa using h
      · rw [if_neg hk] at h
        exact ih (insertA d k w) hnd.2 h

theorem keysNodup_updDict {α β : Type} [DecidableEq α] (kvs d : List (α × β))
    (h : (d.map Prod.fst).Nodup) : ((updDict d kvs).map Prod.fst).Nodup := by
  induction kvs generalizing d with
  | nil => exact h
  | cons p t ih =>
      simp only [updDict, List.foldl_cons]
      exact ih (insertA d p.1 p.2) (keysNodup_insertA d p.1 p.2 h)

theorem lookupA_isSome_updDict {α β : Type} [DecidableEq α] (kvs d : List (α × β)) (x : α)
    (h : (lookupA d x).isSome) : (lookupA (updDict d kvs) x).isSome := by
  induction kvs generalizing d with
  | nil => exact h
  | cons p t ih =>
      simp only [updDict, List.foldl_cons]
      exact ih (insertA d p.1 p.2) (lookupA_isSome_insertA d p.1 p.2 x h)

theorem lookupA_selfmap {α β : Type} [DecidableEq α] (l : List α) (f : α → β) (x : α) :
    lookupA (l.map fun a => (a, f a)) x = if x ∈ l then some (f x) else none := by
  induction l with
  | nil => simp [lookupA]
  | cons a t ih =>
      simp only [List.map_cons, lookupA, List.mem_cons]
      by_cases ha : a = x
      · subst ha
        simp
      · have ha' : ¬ x = a := fun h => ha h.symm
        simp [ha, ha', ih]

theorem lookupA_map_inj {α β : Type} [DecidableEq α] (l : List (α × β)) (f : α → α)
    (hf : ∀ a b : α, f a = f b → a = b) (x : α) :
    lookupA (l.map fun p => (f p.1, p.2)) (f x) = lookupA l x := by
  induction l with
  | nil => rfl
  | cons p t ih =>
      simp only [List.map_cons, lookupA]
      by_cases h : p.1 = x
      · simp [h]
      · have hne : ¬ f p.1 = f x := fun hfe => h (hf _ _ hfe)
        simp [h, hne, ih]

theorem lookupA_map_eq_none {α β : Type} [DecidableEq α] (l : List (α × β)) (f : α → α)
    (y : α) (h : ∀ p ∈ l, ¬ f p.1 = y) :
    lookupA (l.map fun p => (f p.1, p.2)) y = none := by
  apply lookupA_eq_none_of_not_mem
  intro hy
  simp only [List.map_map, List.mem_map, Function.comp] at hy
  obtain ⟨p, hp, hpy⟩ := hy
  exact h p hp hpy

theorem lookupA_filter_key {α β : Type} [DecidableEq α] (l : List (α × β)) (pk : α → Bool)
    (x : α) :
    lookupA (l.filter fun pr => pk pr.1) x = if pk x then lookupA l x else none := by
  induction l with
  | nil => simp [lookupA]
  | cons p t ih =>
      obtain ⟨k, v⟩ := p
      simp only [List.filter_cons]
      by_cases hp : pk k
      · simp only [hp, if_pos, lookupA, ih]
        by_cases hk : k = x
        · subst hk
          simp [hp]
        · simp [hk]
      · simp only [hp, Bool.false_eq_true, if_false, ih]
        by_cases hk : k = x
        · subst hk
          simp [lookupA, hp]
        · by_cases hx : pk x <;> simp [hx, lookupA, hk]

/-!
Stepping lemmas for the processing loop.
-/

theorem processRV_obs (obs : List (Nat × Expr)) (nz : Expr → Expr) (st : LoopState)
    (rv : Nat) (h : (lookupA obs rv).isSome) : processRV obs nz st rv = st := by
  unfold processRV
  simp [h]

theorem processRV_nocand (obs : List (Nat × Expr)) (nz : Expr → Expr) (st : LoopState)
    (rv : Nat) (h : ¬ (lookupA obs rv).isSome)
    (hc : ((lookupA st.tracker rv).getD []).getLast? = none) :
    processRV obs nz st rv =
      { st with missing := if rv ∈ st.missing then st.missing else st.missing ++ [rv] } := by
  unfold processRV
  simp [h, hc]

theorem processRV_cand (obs : List (Nat × Expr)) (nz : Expr → Expr) (st : LoopState)
    (rv : Nat) (c : Candidate) (h : ¬ (lookupA obs rv).isSome)
    (hc : ((lookupA st.tracker rv).getD []).getLast? = some c) :
    processRV obs nz st rv =
      { steps := insertA st.steps rv (nz (substVar st.steps c.step))
        updates := updDict st.updates
          (c.updates.map fun p => (nz (substVar st.steps p.1), nz (substVar st.steps p.2)))
        missing := st.missing
        tracker := insertA st.tracker rv ((lookupA st.tracker rv).getD []).dropLast } := by
  unfold processRV
  simp [h, hc]

theorem processRV_tracker_ne (obs : List (Nat × Expr)) (nz : Expr → Expr) (st : LoopState)
    (rv x : Nat) (hx : ¬ x = rv) :
    lookupA (processRV obs nz st rv).tracker x = lookupA st.tracker x := by
  by_cases h : (lookupA obs rv).isSome
  · rw [processRV_obs obs nz st rv h]
  · rcases hc : ((lookupA st.tracker rv).getD []).getLast? with _ | c
    · rw [processRV_nocand obs nz st rv h hc]
    · rw [processRV_cand obs nz st rv c h hc]
      simp only [lookupA_insertA]
      rw [if_neg fun he => hx he.symm]

theorem processRV_steps_ne (obs : List (Nat × Expr)) (nz : Expr → Expr) (st : LoopState)
    (rv x : Nat) (hx : ¬ x = rv) :
    lookupA (processRV obs nz st rv).steps x = lookupA st.steps x := by
  by_cases h : (lookupA obs rv).isSome
  · rw [processRV_obs obs nz st rv h]
  · rcases hc : ((lookupA st.tracker rv).getD []).getLast? with _ | c
    · rw [processRV_nocand obs nz st rv h hc]
    · rw [processRV_cand obs nz st rv c h hc]
      simp only [lookupA_insertA]
      rw [if_neg fun he => hx he.symm]

theorem processRV_steps_isSome (obs : List (Nat × Expr)) (nz : Expr → Expr) (st : LoopState)
    (rv x : Nat) (hx : (lookupA st.steps x).isSome) :
    (lookupA (processRV obs nz st rv).steps x).isSome := by
  by_cases h : (lookupA obs rv).isSome
  · rw [processRV_obs obs nz st rv h]; exact hx
  · rcases hc : ((lookupA st.tracker rv).getD []).getLast? with _ | c
    · rw [processRV_nocand obs nz st rv h hc]; exact hx
    · rw [processRV_cand obs nz st rv c h hc]
      exact lookupA_isSome_insertA _ _ _ _ hx

theorem processRV_missing_iff (obs : List (Nat × Expr)) (nz : Expr → Expr) (st : LoopState)
    (rv x : Nat) :
    x ∈ (processRV obs nz st rv).missing ↔
      x ∈ st.missing ∨ (x = rv ∧ ¬ (lookupA obs rv).isSome ∧
        ((lookupA st.tracker rv).getD []).getLast? = none) := by
  by_cases h : (lookupA obs rv).isSome
  · rw [processRV_obs obs nz st rv h]
    simp [h]
  · rcases hc : ((lookupA st.tracker rv).getD []).getLast? with _ | c
    · rw [processRV_nocand obs nz st rv h hc]
      by_cases hm : rv ∈ st.missing
      · simp only [hm, if_pos]
        constructor
        · exact fun hx => Or.inl hx
        · rintro (hx | ⟨rfl, _, _⟩)
          · exact hx
          · exact hm
      · simp only [hm, if_false, List.mem_append, List.mem_singleton]
        constructor
        · rintro (hx | rfl)
          · exact Or.inl hx
          · refine Or.inr ⟨rfl, h, ?_⟩
            first
            | exact hc
            | rfl
            | trivial
        · rintro (hx | ⟨rfl, _, _⟩)
          · exact Or.inl hx
          · exact Or.inr rfl
    · rw [processRV_cand obs nz st rv c h hc]
      simp [hc]

/-!
Lemmas about the iterated loop state.
-/

theorem stAfter_zero (G : IRGraph) (clone : Nat → Nat) (nz : Expr → Expr) :
    stAfter G clone nz 0 = initState G clone := rfl

theorem take_succ_getElem (l : List Nat) (k : Nat) (hk : k < l.length) :
    l.take (k + 1) = l.take k ++ [l[k]] := by
  rw [List.take_succ, List.getElem?_eq_getElem hk]
  rfl

theorem stAfter_succ (G : IRGraph) (clone : Nat → Nat) (nz : Expr → Expr) (k : Nat)
    (hk : k < G.outputs.length) :
    stAfter G clone nz (k + 1) =
      processRV G.obs nz (stAfter G clone nz k) (G.outputs[k]) := by
  unfold stAfter
  rw [take_succ_getElem G.outputs k hk, List.foldl_append]
  rfl

theorem finState_eq_stAfter (G : IRGraph) (clone : Nat → Nat) (nz : Expr → Expr) :
    finState G clone nz = stAfter G clone nz G.outputs.length := by
  unfold finState stAfter
  rw [List.take_length]

theorem getElem_not_mem_take (l : List Nat) (hnd : l.Nodup) (k : Nat) (hk : k < l.length) :
    l[k] ∉ l.take k := by
  intro hmem
  have hdisj : (l.take k).Disjoint (l.drop k) := by
    have h2 := hnd
    rw [← List.take_append_drop k l, List.nodup_append] at h2
    exact h2.2.2
  have hdrop : l[k] ∈ l.drop k := by
    rw [List.drop_eq_getElem_cons hk]
    exact List.mem_cons_self _ _
  exact hdisj hmem hdrop
/-!
Characterization of the initial substitution table.
-/

theorem lookupA_rvsToInitVals (G : IRGraph) (clone : Nat → Nat) (hnd : G.outputs.Nodup)
    (rv : Nat) :
    lookupA (rvsToInitVals G clone) rv =
      if rv ∈ randomVars G then some (.var (clone rv)) else none := by
  unfold rvsToInitVals dictOf
  have hsel := lookupA_selfmap (randomVars G) (fun a => Expr.var (clone a)) rv
  by_cases hm : rv ∈ randomVars G
  · rw [if_pos hm] at hsel
    have hkeys : ((((randomVars G).map fun a => (a, Expr.var (clone a))).map Prod.fst)).Nodup := by
      have hmap : (((randomVars G).map fun a => (a, Expr.var (clone a))).map Prod.fst)
          = randomVars G := by
        rw [List.map_map]
        exact List.map_id _
      rw [hmap]
      exact hnd.filter _
    rw [if_pos hm]
    exact lookupA_updDict_of_some _ _ _ _ hkeys hsel
  · rw [if_neg hm] at hsel
    rw [if_neg hm]
    rw [lookupA_updDict_of_none _ _ _ hsel]
    rfl

theorem lookupA_initSteps_obs (G : IRGraph) (clone : Nat → Nat)
    (hobsnd : (G.obs.map Prod.fst).Nodup) (rv : Nat) (v : Expr)
    (h : lookupA G.obs rv = some v) : lookupA (initSteps G clone) rv = some v :=
  lookupA_updDict_of_some _ _ _ _ hobsnd h

theorem lookupA_initSteps_latent (G : IRGraph) (clone : Nat → Nat) (hnd : G.outputs.Nodup)
    (rv : Nat) (hobs : lookupA G.obs rv = none) (hout : rv ∈ G.outputs) :
    lookupA (initSteps G clone) rv = some (.var (clone rv)) := by
  unfold initSteps
  rw [lookupA_updDict_of_none _ _ _ hobs, lookupA_rvsToInitVals G clone hnd rv, if_pos]
  exact List.mem_filter.2 ⟨hout, by simp [hobs]⟩

theorem lookupA_initSteps_out (G : IRGraph) (clone : Nat → Nat) (hnd : G.outputs.Nodup)
    (rv : Nat) (hobs : lookupA G.obs rv = none) (hout : rv ∉ G.outputs) :
    lookupA (initSteps G clone) rv = none := by
  unfold initSteps
  rw [lookupA_updDict_of_none _ _ _ hobs, lookupA_rvsToInitVals G clone hnd rv, if_neg]
  intro hm
  exact hout (List.mem_filter.1 hm).1

/-!
Loop invariants: the tracker for unprocessed nodes, the missing set,
and the substitution-table entries before and after processing.
-/

theorem tracker_stable (G : IRGraph) (clone : Nat → Nat) (nz : Expr → Expr) (k : Nat)
    (hk : k ≤ G.outputs.length) (rv : Nat) (hrv : rv ∉ G.outputs.take k) :
    lookupA (stAfter G clone nz k).tracker rv = lookupA G.samplers rv := by
  induction k with
  | zero => rfl
  | succ n ih =>
      have hn : n < G.outputs.length := Nat.lt_of_succ_le hk
      have htake := take_succ_getElem G.outputs n hn
      have hrvn : rv ∉ G.outputs.take n := fun hm =>
        hrv (htake ▸ List.mem_append_left _ hm)
      have hne : ¬ rv = G.outputs[n] := fun he =>
        hrv (htake ▸ List.mem_append_right _ (by simp [he]))
      rw [stAfter_succ G clone nz n hn, processRV_tracker_ne _ _ _ _ _ hne]
      exact ih (le_of_lt hn) hrvn

theorem steps_stable (G : IRGraph) (clone : Nat → Nat) (nz : Expr → Expr) (k : Nat)
    (hk : k ≤ G.outputs.length) (rv : Nat)
    (hrv : rv ∉ G.outputs.take k ∨ (lookupA G.obs rv).isSome) :
    lookupA (stAfter G clone nz k).steps rv = lookupA (initSteps G clone) rv := by
  induction k with
  | zero => rfl
  | succ n ih =>
      have hn : n < G.outputs.length := Nat.lt_of_succ_le hk
      have htake := take_succ_getElem G.outputs n hn
      rw [stAfter_succ G clone nz n hn]
      by_cases hobsy : (lookupA G.obs (G.outputs[n])).isSome
      · rw [processRV_obs _ _ _ _ hobsy]
        apply ih (le_of_lt hn)
        rcases hrv with hrv | hrv
        · exact Or.inl fun hm => hrv (htake ▸ List.mem_append_left _ hm)
        · exact Or.inr hrv
      · have hne : ¬ rv = G.outputs[n] := by
          intro he
          rcases hrv with hrv | hrv
          · exact hrv (htake ▸ List.mem_append_right _ (by simp [he]))
          · rw [he] at hrv
            exact hobsy hrv
        rw [processRV_steps_ne _ _ _ _ _ hne]
        apply ih (le_of_lt hn)
        rcases hrv with hrv | hrv
        · exact Or.inl fun hm => hrv (htake ▸ List.mem_append_left _ hm)
        · exact Or.inr hrv

theorem missing_iff (G : IRGraph) (clone : Nat → Nat) (nz : Expr → Expr)
    (hnd : G.outputs.Nodup) (k : Nat) (hk : k ≤ G.outputs.length) (rv : Nat) :
    rv ∈ (stAfter G clone nz k).missing ↔
      rv ∈ G.outputs.take k ∧ lookupA G.obs rv = none ∧
        (lookupA G.samplers rv).getD [] = [] := by
  induction k with
  | zero => simp [stAfter_zero, initState]
  | succ n ih =>
      have hn : n < G.outputs.length := Nat.lt_of_succ_le hk
      have htake := take_succ_getElem G.outputs n hn
      have hyn : G.outputs[n] ∉ G.outputs.take n := getElem_not_mem_take G.outputs hnd n hn
      have htr := tracker_stable G clone nz n (le_of_lt hn) (G.outputs[n]) hyn
      rw [stAfter_succ G clone nz n hn, processRV_missing_iff, ih (le_of_lt hn), htake]
      constructor
      · rintro (⟨hmem, hobs, hcand⟩ | ⟨rfl, hobs, hlast⟩)
        · exact ⟨List.mem_append_left _ hmem, hobs, hcand⟩
        · rw [htr] at hlast
          refine ⟨List.mem_append_right _ (by simp), ?_, ?_⟩
          · cases hl : lookupA G.obs (G.outputs[n]) with
            | none => rfl
            | some v =>
                rw [hl] at hobs
                simp at hobs
          · exact List.getLast?_eq_none_iff.1 hlast
      · rintro ⟨hmem, hobs, hcand⟩
        rcases List.mem_append.1 hmem with hmem | hmem
        · exact Or.inl ⟨hmem, hobs, hcand⟩
        · simp only [List.mem_singleton] at hmem
          subst hmem
          refine Or.inr ⟨rfl, by simp [hobs], ?_⟩
          rw [htr, hcand]
          rfl

theorem steps_resolved (G : IRGraph) (clone : Nat → Nat) (nz : Expr → Expr)
    (hnd : G.outputs.Nodup) (i : Nat) (hi : i < G.outputs.length)
    (hobs : lookupA G.obs (G.outputs[i]) = none) (c : Candidate)
    (hc : ((lookupA G.samplers (G.outputs[i])).getD []).getLast? = some c) :
    ∀ k, i < k → k ≤ G.outputs.length →
      lookupA (stAfter G clone nz k).steps (G.outputs[i]) =
        some (nz (substVar (stAfter G clone nz i).steps c.step)) := by
  intro k
  induction k with
  | zero =>
      intro hik
      omega
  | succ n ih =>
      intro hik hk
      have hn : n < G.outputs.length := Nat.lt_of_succ_le hk
      rw [stAfter_succ G clone nz n hn]
      by_cases hin : i = n
      · subst hin
        have hyn : G.outputs[i] ∉ G.outputs.take i :=
          getElem_not_mem_take G.outputs hnd i hn
        have htr := tracker_stable G clone nz i (le_of_lt hn) (G.outputs[i]) hyn
        have hobs2 : ¬ (lookupA G.obs (G.outputs[i])).isSome := by simp [hobs]
        have hc2 : ((lookupA (stAfter G clone nz i).tracker (G.outputs[i])).getD
            []).getLast? = some c := by
          rw [htr]
          exact hc
        rw [processRV_cand _ _ _ _ _ hobs2 hc2]
        simp [lookupA_insertA]
      · have hikn : i < n := lt_of_le_of_ne (Nat.lt_succ_iff.1 hik) hin
        have hne : ¬ G.outputs[i] = G.outputs[n] := fun he =>
          hin (hnd.getElem_inj_iff.1 he)
        rw [processRV_steps_ne _ _ _ _ _ hne]
        exact ih hikn (le_of_lt hn)

/-!
Occurrence lemmas for the dependency-substitution property.
-/

theorem occursB_refl (e : Expr) : occursB e e = true := by
  cases e <;> simp [occursB]

theorem occursB_substVar (t : List (Nat × Expr)) (a : Nat) (r : Expr)
    (ht : lookupA t a = some r) (e : Expr) (he : occursB (.var a) e = true) :
    occursB r (substVar t e) = true := by
  induction e with
  | var i =>
      simp only [occursB, decide_eq_true_eq] at he
      rw [Expr.var.injEq] at he
      subst he
      simp [substVar, ht, occursB_refl]
  | cst cc => simp [occursB] at he
  | app f g ihf ihg =>
      simp only [occursB, Bool.or_eq_true, decide_eq_true_eq] at he
      rcases he with (he | hf) | hg
      · exact absurd he (by simp)
      · simp [substVar, occursB, ihf hf]
      · simp [substVar, occursB, ihg hg]

/-!
Key-uniqueness and persistence helpers for the result assembly.
-/

theorem dictOf_keysNodup {α β : Type} [DecidableEq α] (kvs : List (α × β)) :
    ((dictOf kvs).map Prod.fst).Nodup :=
  keysNodup_updDict kvs [] (by simp)

theorem lookupA_dictOf {α β : Type} [DecidableEq α] (L : List (α × β))
    (hnd : (L.map Prod.fst).Nodup) (x : α) : lookupA (dictOf L) x = lookupA L x := by
  cases hl : lookupA L x with
  | none =>
      unfold dictOf
      rw [lookupA_updDict_of_none _ _ _ hl]
      rfl
  | some v => exact lookupA_updDict_of_some _ _ _ _ hnd hl

theorem initSteps_keysNodup (G : IRGraph) (clone : Nat → Nat) :
    ((initSteps G clone).map Prod.fst).Nodup :=
  keysNodup_updDict G.obs (rvsToInitVals G clone) (dictOf_keysNodup _)

theorem processRV_steps_keysNodup (obs : List (Nat × Expr)) (nz : Expr → Expr)
    (st : LoopState) (rv : Nat) (h : (st.steps.map Prod.fst).Nodup) :
    ((processRV obs nz st rv).steps.map Prod.fst).Nodup := by
  by_cases hobs : (lookupA obs rv).isSome
  · rw [processRV_obs _ _ _ _ hobs]
    exact h
  · rcases hc : ((lookupA st.tracker rv).getD []).getLast? with _ | c
    · rw [processRV_nocand _ _ _ _ hobs hc]
      exact h
    · rw [processRV_cand _ _ _ _ _ hobs hc]
      exact keysNodup_insertA _ _ _ h

theorem foldl_steps_keysNodup (obs : List (Nat × Expr)) (nz : Expr → Expr) (l : List Nat) :
    ∀ st : LoopState, (st.steps.map Prod.fst).Nodup →
      (((l.foldl (processRV obs nz) st).steps).map Prod.fst).Nodup := by
  induction l with
  | nil => exact fun st h => h
  | cons rv t ih =>
      intro st h
      simp only [List.foldl_cons]
      exact ih _ (processRV_steps_keysNodup obs nz st rv h)

theorem finState_steps_keysNodup (G : IRGraph) (clone : Nat → Nat) (nz : Expr → Expr) :
    ((finState G clone nz).steps.map Prod.fst).Nodup :=
  foldl_steps_keysNodup G.obs nz G.outputs (initState G clone) (initSteps_keysNodup G clone)

theorem foldl_steps_isSome (obs : List (Nat × Expr)) (nz : Expr → Expr) (l : List Nat) :
    ∀ (st : LoopState) (x : Nat), (lookupA st.steps x).isSome →
      (lookupA ((l.foldl (processRV obs nz) st)).steps x).isSome := by
  induction l with
  | nil => exact fun st x h => h
  | cons rv t ih =>
      intro st x h
      simp only [List.foldl_cons]
      exact ih _ x (processRV_steps_isSome obs nz st rv x h)

theorem mapped_keysNodup (l : List (Nat × Expr)) (f : Nat → Nat)
    (hf : ∀ a b : Nat, f a = f b → a = b) (h : (l.map Prod.fst).Nodup) :
    ((l.map fun p => (f p.1, p.2)).map Prod.fst).Nodup := by
  have heq : ((l.map fun p => (f p.1, p.2)).map Prod.fst) = (l.map Prod.fst).map f := by
    rw [List.map_map, List.map_map]
    rfl
  rw [heq]
  exact h.map fun a b hab => hf a b hab

theorem filter_keysNodup (l : List (Nat × Expr)) (p : Nat × Expr → Bool)
    (h : (l.map Prod.fst).Nodup) : ((l.filter p).map Prod.fst).Nodup :=
  h.sublist ((List.filter_sublist l).map Prod.fst)

theorem getElem_not_mem_take_le (l : List Nat) (hnd : l.Nodup) (k j : Nat)
    (hj : j < l.length) (hkj : k ≤ j) : l[j] ∉ l.take k := by
  intro hmem
  obtain ⟨i, hi, hieq⟩ := List.mem_iff_getElem.1 hmem
  have hik : i < k := by
    have h2 := hi
    simp only [List.length_take] at h2
    omega
  rw [List.getElem_take] at hieq
  have hij : i = j := hnd.getElem_inj_iff.1 hieq
  omega

theorem le_foldl_max (g : Nat → Nat) (l : List Nat) :
    ∀ a : Nat, a ≤ l.foldl (fun a rv => max a (g rv)) a := by
  induction l with
  | nil => exact fun a => le_refl a
  | cons x t ih =>
      intro a
      exact le_trans (le_max_left a (g x)) (ih (max a (g x)))

/-!
Congruence of the processing loop in the non-last candidates: only each
node's last-registered candidate can influence the loop's result.
-/

theorem foldl_processRV_congr (obs : List (Nat × Expr)) (nz : Expr → Expr) (l : List Nat)
    (hnd : l.Nodup) :
    ∀ st1 st2 : LoopState, st1.steps = st2.steps → st1.updates = st2.updates →
      st1.missing = st2.missing →
      (∀ rv ∈ l, ((lookupA st1.tracker rv).getD []).getLast? =
        ((lookupA st2.tracker rv).getD []).getLast?) →
      (l.foldl (processRV obs nz) st1).steps = (l.foldl (processRV obs nz) st2).steps ∧
      (l.foldl (processRV obs nz) st1).updates = (l.foldl (processRV obs nz) st2).updates ∧
      (l.foldl (processRV obs nz) st1).missing = (l.foldl (processRV obs nz) st2).missing := by
  induction l with
  | nil => exact fun st1 st2 h1 h2 h3 _ => ⟨h1, h2, h3⟩
  | cons rv t ih =>
      intro st1 st2 h1 h2 h3 h4
      simp only [List.foldl_cons]
      have hnotmem : rv ∉ t := (List.nodup_cons.1 hnd).1
      have htnd : t.Nodup := (List.nodup_cons.1 hnd).2
      have hlast := h4 rv (List.mem_cons_self rv t)
      by_cases hobs : (lookupA obs rv).isSome
      · rw [processRV_obs _ _ _ _ hobs, processRV_obs _ _ _ _ hobs]
        exact ih htnd st1 st2 h1 h2 h3 fun x hx => h4 x (List.mem_cons_of_mem rv hx)
      · rcases hc : ((lookupA st1.tracker rv).getD []).getLast? with _ | c
        · have hc2 : ((lookupA st2.tracker rv).getD []).getLast? = none := by
            rw [← hlast]
            exact hc
          rw [processRV_nocand _ _ _ _ hobs hc, processRV_nocand _ _ _ _ hobs hc2]
          apply ih htnd
          · exact h1
          · exact h2
          · simp only [h3]
          · intro x hx
            exact h4 x (List.mem_cons_of_mem rv hx)
        · have hc2 : ((lookupA st2.tracker rv).getD []).getLast? = some c := by
            rw [← hlast]
            exact hc
          rw [processRV_cand _ _ _ _ _ hobs hc, processRV_cand _ _ _ _ _ hobs hc2]
          apply ih htnd
          · simp only [h1]
          · simp only [h1, h2]
          · exact h3
          · intro x hx
            have hxne : ¬ x = rv := fun he => hnotmem (he ▸ hx)
            simp only [lookupA_insertA]
            rw [if_neg fun he => hxne he.symm, if_neg fun he => hxne he.symm]
            exact h4 x (List.mem_cons_of_mem rv hx)

/-!
Extraction of the success and failure branches of `constructSampler`.
-/

theorem constructSampler_ok_iff (G : IRGraph) (clone : Nat → Nat) (nz : Expr → Expr)
    (nto : Nat → Nat) (r : List (Nat × Expr) × List (Expr × Expr) × List (Nat × Expr)) :
    constructSampler G clone nz nto = .ok r ↔
      (finState G clone nz).missing = [] ∧
      r = (dictOf (((finState G clone nz).steps.filter
              fun p => (lookupA G.obs p.1).isNone).map fun p => (nto p.1, p.2)),
           (finState G clone nz).updates,
           dictOf ((rvsToInitVals G clone).map fun p => (nto p.1, p.2))) := by
  by_cases hm : (finState G clone nz).missing = []
  · simp only [constructSampler, hm, if_pos, true_and]
    constructor
    · intro h
      exact (Except.ok.injEq _ _ ▸ congrArg id h).symm ▸ rfl
    · intro h
      rw [h]
  · simp only [constructSampler, hm, if_neg, false_and, iff_false]
    intro h
    exact hm (by cases h)

theorem constructSampler_error_iff (G : IRGraph) (clone : Nat → Nat) (nz : Expr → Expr)
    (nto : Nat → Nat) (es : List Nat) :
    constructSampler G clone nz nto = .error es ↔
      ¬ (finState G clone nz).missing = [] ∧ es = (finState G clone nz).missing := by
  by_cases hm : (finState G clone nz).missing = []
  · simp [constructSampler, hm]
  · simp [constructSampler, hm, eq_comm]

theorem finState_missing_iff (G : IRGraph) (clone : Nat → Nat) (nz : Expr → Expr)
    (hnd : G.outputs.Nodup) (rv : Nat) :
    rv ∈ (finState G clone nz).missing ↔
      rv ∈ G.outputs ∧ lookupA G.obs rv = none ∧
        (lookupA G.samplers rv).getD [] = [] := by
  rw [finState_eq_stAfter]
  have h := missing_iff G clone nz hnd G.outputs.length (le_refl _) rv
  rwa [List.take_length] at h

/-!
Claim theorems.
-/

/-- C1: if after processing every latent output node at least one latent
node has zero registered sampler candidates, `construct_sampler` fails
by raising the missing-sampler error naming exactly the set of
unresolved latent nodes; the error set covers every candidate-less
latent node (so the error is raised only after all of them have been
attempted), and no step mapping is returned to the caller. -/
theorem missing_sampler_error (G : IRGraph) (clone : Nat → Nat) (nz : Expr → Expr)
    (nto : Nat → Nat) (hnd : G.outputs.Nodup) (x : Nat) (hx : x ∈ G.outputs)
    (hxobs : lookupA G.obs x = none) (hxc : (lookupA G.samplers x).getD [] = []) :
    ∃ es, constructSampler G clone nz nto = .error es ∧ es ≠ [] ∧
      ∀ rv, rv ∈ es ↔ rv ∈ G.outputs ∧ lookupA G.obs rv = none ∧
        (lookupA G.samplers rv).getD [] = [] := by
  have hmem := finState_missing_iff G clone nz hnd
  have hne : (finState G clone nz).missing ≠ [] := by
    intro h0
    have hm := (hmem x).2 ⟨hx, hxobs, hxc⟩
    rw [h0] at hm
    exact List.not_mem_nil x hm
  exact ⟨(finState G clone nz).missing,
    (constructSampler_error_iff G clone nz nto _).2 ⟨hne, rfl⟩, hne, hmem⟩

/-- C1 witness: a two-output graph where node 1 has no candidate. -/
theorem missing_sampler_error_witness :
    (([0, 1] : List Nat).Nodup ∧ (1 : Nat) ∈ [0, 1] ∧
      lookupA ([] : List (Nat × Expr)) 1 = none ∧
      (lookupA [(0, [(⟨0, .cst 7, []⟩ : Candidate)])] 1).getD [] = []) ∧
    ∃ es, constructSampler ⟨[0, 1], [], [(0, [⟨0, .cst 7, []⟩])]⟩
        (fun n => n + 100) id (fun n => n + 1000) = .error es ∧ es ≠ [] ∧
      ∀ rv, rv ∈ es ↔ rv ∈ ([0, 1] : List Nat) ∧
        lookupA ([] : List (Nat × Expr)) rv = none ∧
        (lookupA [(0, [(⟨0, .cst 7, []⟩ : Candidate)])] rv).getD [] = [] :=
  ⟨⟨by decide, by decide, by decide, by decide⟩,
   missing_sampler_error ⟨[0, 1], [], [(0, [⟨0, .cst 7, []⟩])]⟩
     (fun n => n + 100) id (fun n => n + 1000) (by decide) 1 (by decide) (by decide)
     (by decide)⟩

/-- C3 counterexample: at a concrete graph with one latent output node 0
and placeholder `clone 0 = 100`, the initialized Posterior Substitution
Table has no entry keyed by the placeholder (no placeholder→node
entry); its entry is keyed by the node and maps to the placeholder. -/
theorem init_table_direction_cex :
    lookupA (initSteps ⟨[0], [], []⟩ (fun n => n + 100)) 100 = none ∧
    lookupA (initSteps ⟨[0], [], []⟩ (fun n => n + 100)) 0 = some (.var 100) := by
  decide

/-- C3 amended: before the per-node processing loop starts, the
Posterior Substitution Table is initialized with a node→placeholder
entry for every latent output node (one fresh initial-value placeholder
per latent node), and entries for observed nodes are set to their
observation node, so that references to observed variables inside any
step resolve directly to data. -/
theorem init_table_node_to_placeholder (G : IRGraph) (clone : Nat → Nat)
    (hnd : G.outputs.Nodup) (hobsnd : (G.obs.map Prod.fst).Nodup) :
    (initState G clone).steps = initSteps G clone ∧
    (∀ rv ∈ G.outputs, lookupA G.obs rv = none →
      lookupA (initSteps G clone) rv = some (.var (clone rv))) ∧
    (∀ rv v, lookupA G.obs rv = some v → lookupA (initSteps G clone) rv = some v) := by
  refine ⟨rfl, ?_, ?_⟩
  · intro rv hout hobs
    exact lookupA_initSteps_latent G clone hnd rv hobs hout
  · intro rv v hobs
    exact lookupA_initSteps_obs G clone hobsnd rv v hobs

/-- C3 amended witness: one latent node 0 and one observed node 1 with
observation `cst 5`. -/
theorem init_table_node_to_placeholder_witness :
    (([0, 1] : List Nat).Nodup ∧
      (([(1, Expr.cst 5)] : List (Nat × Expr)).map Prod.fst).Nodup) ∧
    ((initState ⟨[0, 1], [(1, .cst 5)], []⟩ (fun n => n + 100)).steps =
        initSteps ⟨[0, 1], [(1, .cst 5)], []⟩ (fun n => n + 100) ∧
     (∀ rv ∈ ([0, 1] : List Nat), lookupA ([(1, Expr.cst 5)] : List (Nat × Expr)) rv = none →
        lookupA (initSteps ⟨[0, 1], [(1, .cst 5)], []⟩ (fun n => n + 100)) rv =
          some (.var (rv + 100))) ∧
     (∀ rv v, lookupA ([(1, Expr.cst 5)] : List (Nat × Expr)) rv = some v →
        lookupA (initSteps ⟨[0, 1], [(1, .cst 5)], []⟩ (fun n => n + 100)) rv = some v)) :=
  ⟨⟨by decide, by decide⟩,
   init_table_node_to_placeholder ⟨[0, 1], [(1, .cst 5)], []⟩ (fun n => n + 100)
     (by decide) (by decide)⟩

/-!
Lookups into the assembled result mappings.
-/

theorem result_first_lookup (G : IRGraph) (clone : Nat → Nat) (nz : Expr → Expr)
    (nto : Nat → Nat) (hinj : ∀ a b : Nat, nto a = nto b → a = b) (rv : Nat) :
    lookupA (dictOf (((finState G clone nz).steps.filter
        fun p => (lookupA G.obs p.1).isNone).map fun p => (nto p.1, p.2))) (nto rv) =
      if (lookupA G.obs rv).isNone then lookupA (finState G clone nz).steps rv
      else none := by
  have hkeys := mapped_keysNodup
    ((finState G clone nz).steps.filter fun p => (lookupA G.obs p.1).isNone) nto hinj
    (filter_keysNodup (finState G clone nz).steps (fun p => (lookupA G.obs p.1).isNone)
      (finState_steps_keysNodup G clone nz))
  rw [lookupA_dictOf _ hkeys,
    lookupA_map_inj ((finState G clone nz).steps.filter
      fun p => (lookupA G.obs p.1).isNone) nto hinj,
    lookupA_filter_key (finState G clone nz).steps (fun k => (lookupA G.obs k).isNone)]

theorem result_third_lookup (G : IRGraph) (clone : Nat → Nat) (nto : Nat → Nat)
    (hnd : G.outputs.Nodup) (hinj : ∀ a b : Nat, nto a = nto b → a = b) (rv : Nat) :
    lookupA (dictOf ((rvsToInitVals G clone).map fun p => (nto p.1, p.2))) (nto rv) =
      if rv ∈ randomVars G then some (.var (clone rv)) else none := by
  have hkeys := mapped_keysNodup (rvsToInitVals G clone) nto hinj
    (dictOf_keysNodup ((randomVars G).map fun rv => (rv, Expr.var (clone rv))))
  rw [lookupA_dictOf _ hkeys, lookupA_map_inj (rvsToInitVals G clone) nto hinj,
    lookupA_rvsToInitVals G clone hnd]

/-- C2 counterexample: the global update mapping is returned exactly as
accumulated, in canonical step-graph identities; it is not translated
through the new-to-old identity map as the claim states.  At this
concrete input the returned update pair is `(var 7, var 8)` while the
spec-mandated translation through `nto = (· + 1000)` would rename its
key to `var 1007`. -/
theorem updates_not_translated_cex :
    ∃ r, constructSampler ⟨[0], [], [(0, [⟨0, .cst 7, [(.var 7, .var 8)]⟩])]⟩
        (fun n => n + 100) id (fun n => n + 1000) = .ok r ∧
      r.2.1 = [(.var 7, .var 8)] ∧
      ¬ r.2.1 = translateUpdatesSpec (fun n => n + 1000) r.2.1 :=
  ⟨([(1000, .cst 7)], [(.var 7, .var 8)], [(1000, .var 100)]), rfl, rfl, by decide⟩

/-- C2 amended: on success the step mapping and the placeholder mapping
are keyed by original (pre-canonicalization) identities through the
new-to-old map, with observed variables excluded from both; the global
update mapping is returned as accumulated, without translation. -/
theorem return_translation (G : IRGraph) (clone : Nat → Nat) (nz : Expr → Expr)
    (nto : Nat → Nat) (hnd : G.outputs.Nodup)
    (hinj : ∀ a b : Nat, nto a = nto b → a = b)
    (r : List (Nat × Expr) × List (Expr × Expr) × List (Nat × Expr))
    (hr : constructSampler G clone nz nto = .ok r) :
    r.2.1 = (finState G clone nz).updates ∧
    (∀ rv ∈ G.outputs, lookupA G.obs rv = none →
      lookupA r.1 (nto rv) = lookupA (finState G clone nz).steps rv ∧
      lookupA r.2.2 (nto rv) = some (.var (clone rv))) ∧
    (∀ rv, (lookupA G.obs rv).isSome →
      lookupA r.1 (nto rv) = none ∧ lookupA r.2.2 (nto rv) = none) := by
  obtain ⟨hmiss, hreq⟩ := (constructSampler_ok_iff G clone nz nto r).1 hr
  subst hreq
  refine ⟨rfl, ?_, ?_⟩
  · intro rv hout hobs
    constructor
    · rw [result_first_lookup G clone nz nto hinj rv]
      simp [hobs]
    · rw [result_third_lookup G clone nto hnd hinj rv, if_pos]
      exact List.mem_filter.2 ⟨hout, by simp [hobs]⟩
  · intro rv hobs
    constructor
    · rw [result_first_lookup G clone nz nto hinj rv]
      cases hv : lookupA G.obs rv with
      | none =>
          rw [hv] at hobs
          simp at hobs
      | some v => simp [hv]
    · rw [result_third_lookup G clone nto hnd hinj rv, if_neg]
      intro hm
      have hp := (List.mem_filter.1 hm).2
      cases hv : lookupA G.obs rv with
      | none =>
          rw [hv] at hobs
          simp at hobs
      | some v =>
          rw [hv] at hp
          simp at hp

/-- C2 amended witness: one latent node 0 with an update pair and one
observed node 1, run at injective `nto = (· + 1000)`. -/
theorem return_translation_witness :
    (([0, 1] : List Nat).Nodup ∧ (∀ a b : Nat, a + 1000 = b + 1000 → a = b) ∧
      constructSampler ⟨[0, 1], [(1, .cst 5)], [(0, [⟨0, .cst 7, [(.var 7, .var 8)]⟩])]⟩
        (fun n => n + 100) id (fun n => n + 1000) =
        .ok ([(1000, .cst 7)], [(.var 7, .var 8)], [(1000, .var 100)])) ∧
    (([(.var 7, .var 8)] : List (Expr × Expr)) =
      (finState ⟨[0, 1], [(1, .cst 5)], [(0, [⟨0, .cst 7, [(.var 7, .var 8)]⟩])]⟩
        (fun n => n + 100) id).updates ∧
    (∀ rv ∈ ([0, 1] : List Nat),
      lookupA ([(1, Expr.cst 5)] : List (Nat × Expr)) rv = none →
      lookupA ([(1000, Expr.cst 7)] : List (Nat × Expr)) (rv + 1000) =
        lookupA (finState ⟨[0, 1], [(1, .cst 5)], [(0, [⟨0, .cst 7, [(.var 7, .var 8)]⟩])]⟩
          (fun n => n + 100) id).steps rv ∧
      lookupA ([(1000, Expr.var 100)] : List (Nat × Expr)) (rv + 1000) =
        some (.var (rv + 100))) ∧
    (∀ rv : Nat, (lookupA ([(1, Expr.cst 5)] : List (Nat × Expr)) rv).isSome →
      lookupA ([(1000, Expr.cst 7)] : List (Nat × Expr)) (rv + 1000) = none ∧
      lookupA ([(1000, Expr.var 100)] : List (Nat × Expr)) (rv + 1000) = none)) :=
  ⟨⟨by decide, fun a b h => Nat.add_right_cancel h, rfl⟩,
   return_translation ⟨[0, 1], [(1, .cst 5)], [(0, [⟨0, .cst 7, [(.var 7, .var 8)]⟩])]⟩
     (fun n => n + 100) id (fun n => n + 1000) (by decide)
     (fun a b h => Nat.add_right_cancel h)
     ([(1000, .cst 7)], [(.var 7, .var 8)], [(1000, .var 100)]) rfl⟩

/-- C4: for latent nodes A (at output position i) and B (at position j),
with i before j, where B's selected candidate step references A, the
resolved step stored (and kept through the end of the loop) for B is
the substitution of B's raw step through the table at time j, in which
A's entry is A's resolved step expression, exactly the entry written
when A was processed; the resolved step for B therefore contains A's
resolved expression as a subterm.  Stated with the external normalizer
being the identity, to isolate the orchestrator's substitution logic. -/
theorem dependency_substitution (G : IRGraph) (clone : Nat → Nat) (nz : Expr → Expr)
    (hnd : G.outputs.Nodup) (i j : Nat) (hi : i < G.outputs.length)
    (hj : j < G.outputs.length) (hij : i < j)
    (hobsA : lookupA G.obs (G.outputs[i]) = none)
    (hobsB : lookupA G.obs (G.outputs[j]) = none)
    (cA cB : Candidate)
    (hcA : ((lookupA G.samplers (G.outputs[i])).getD []).getLast? = some cA)
    (hcB : ((lookupA G.samplers (G.outputs[j])).getD []).getLast? = some cB)
    (hocc : occursB (.var (G.outputs[i])) cB.step = true)
    (hnz : ∀ e, nz e = e) :
    ∃ rA,
      lookupA (stAfter G clone nz (i + 1)).steps (G.outputs[i]) = some rA ∧
      lookupA (stAfter G clone nz j).steps (G.outputs[i]) = some rA ∧
      lookupA (finState G clone nz).steps (G.outputs[j]) =
        some (substVar (stAfter G clone nz j).steps cB.step) ∧
      occursB rA (substVar (stAfter G clone nz j).steps cB.step) = true := by
  refine ⟨nz (substVar (stAfter G clone nz i).steps cA.step), ?_, ?_, ?_, ?_⟩
  · exact steps_resolved G clone nz hnd i hi hobsA cA hcA (i + 1)
      (Nat.lt_succ_self i) hi
  · exact steps_resolved G clone nz hnd i hi hobsA cA hcA j hij (le_of_lt hj)
  · rw [finState_eq_stAfter]
    have h := steps_resolved G clone nz hnd j hj hobsB cB hcB G.outputs.length hj
      (le_refl _)
    rw [hnz] at h
    exact h
  · exact occursB_substVar (stAfter G clone nz j).steps (G.outputs[i]) _
      (steps_resolved G clone nz hnd i hi hobsA cA hcA j hij (le_of_lt hj))
      cB.step hocc

/-- C4 witness: node 0 resolves to `cst 7`; node 1's raw candidate step
`app (var 0) (cst 1)` references node 0, and its resolved step contains
node 0's resolved expression `cst 7`. -/
theorem dependency_substitution_witness :
    (([0, 1] : List Nat).Nodup ∧
      lookupA ([] : List (Nat × Expr)) 0 = none ∧
      lookupA ([] : List (Nat × Expr)) 1 = none ∧
      ((lookupA [(0, [(⟨0, .cst 7, []⟩ : Candidate)]),
          (1, [⟨0, .app (.var 0) (.cst 1), []⟩])] 0).getD []).getLast? =
        some (⟨0, .cst 7, []⟩ : Candidate) ∧
      ((lookupA [(0, [(⟨0, .cst 7, []⟩ : Candidate)]),
          (1, [⟨0, .app (.var 0) (.cst 1), []⟩])] 1).getD []).getLast? =
        some (⟨0, .app (.var 0) (.cst 1), []⟩ : Candidate) ∧
      occursB (.var 0) (.app (.var 0) (.cst 1)) = true ∧
      (∀ e : Expr, id e = e)) ∧
    ∃ rA,
      lookupA (stAfter ⟨[0, 1], [], [(0, [⟨0, .cst 7, []⟩]),
          (1, [⟨0, .app (.var 0) (.cst 1), []⟩])]⟩ (fun n => n + 100) id 1).steps 0 =
        some rA ∧
      lookupA (stAfter ⟨[0, 1], [], [(0, [⟨0, .cst 7, []⟩]),
          (1, [⟨0, .app (.var 0) (.cst 1), []⟩])]⟩ (fun n => n + 100) id 1).steps 0 =
        some rA ∧
      lookupA (finState ⟨[0, 1], [], [(0, [⟨0, .cst 7, []⟩]),
          (1, [⟨0, .app (.var 0) (.cst 1), []⟩])]⟩ (fun n => n + 100) id).steps 1 =
        some (substVar (stAfter ⟨[0, 1], [], [(0, [⟨0, .cst 7, []⟩]),
          (1, [⟨0, .app (.var 0) (.cst 1), []⟩])]⟩ (fun n => n + 100) id 1).steps
          (.app (.var 0) (.cst 1))) ∧
      occursB rA (substVar (stAfter ⟨[0, 1], [], [(0, [⟨0, .cst 7, []⟩]),
          (1, [⟨0, .app (.var 0) (.cst 1), []⟩])]⟩ (fun n => n + 100) id 1).steps
          (.app (.var 0) (.cst 1))) = true :=
  ⟨⟨by decide, by decide, by decide, by decide, by decide, by decide, fun e => rfl⟩,
   dependency_substitution ⟨[0, 1], [], [(0, [⟨0, .cst 7, []⟩]),
       (1, [⟨0, .app (.var 0) (.cst 1), []⟩])]⟩ (fun n => n + 100) id (by decide)
     0 1 (by decide) (by decide) (by decide) (by decide) (by decide)
     ⟨0, .cst 7, []⟩ ⟨0, .app (.var 0) (.cst 1), []⟩ (by decide) (by decide)
     (by decide) (fun e => rfl)⟩

/-- C5: at every point `k` of the processing loop, the Posterior
Substitution Table maps a latent node not yet attempted to its
initial-value placeholder (the fresh clone of the node), and maps a
latent node already processed with a selected candidate to its fully
resolved step expression (its raw candidate step substituted through
the table as it stood when that node was processed, then normalized). -/
theorem posterior_table_invariant (G : IRGraph) (clone : Nat → Nat) (nz : Expr → Expr)
    (hnd : G.outputs.Nodup) (k : Nat) (hk : k ≤ G.outputs.length) :
    (∀ j (hj : j < G.outputs.length), k ≤ j → lookupA G.obs (G.outputs[j]) = none →
      lookupA (stAfter G clone nz k).steps (G.outputs[j]) =
        some (.var (clone (G.outputs[j])))) ∧
    (∀ i (hi : i < G.outputs.length), i < k → lookupA G.obs (G.outputs[i]) = none →
      ∀ c, ((lookupA G.samplers (G.outputs[i])).getD []).getLast? = some c →
        lookupA (stAfter G clone nz k).steps (G.outputs[i]) =
          some (nz (substVar (stAfter G clone nz i).steps c.step))) := by
  constructor
  · intro j hj hkj hobs
    have hnotin : G.outputs[j] ∉ G.outputs.take k :=
      getElem_not_mem_take_le G.outputs hnd k j hj hkj
    rw [steps_stable G clone nz k hk (G.outputs[j]) (Or.inl hnotin)]
    exact lookupA_initSteps_latent G clone hnd (G.outputs[j]) hobs (List.getElem_mem hj)
  · intro i hi hik hobs c hc
    exact steps_resolved G clone nz hnd i hi hobs c hc k hik hk

/-- C5 witness: two latent nodes, stated after one loop iteration: node
1 (unprocessed) still maps to its placeholder, node 0 (processed) maps
to its resolved step. -/
theorem posterior_table_invariant_witness :
    (([0, 1] : List Nat).Nodup ∧ 1 ≤ ([0, 1] : List Nat).length) ∧
    ((∀ j (hj : j < ([0, 1] : List Nat).length), 1 ≤ j →
      lookupA ([] : List (Nat × Expr)) (([0, 1] : List Nat)[j]) = none →
      lookupA (stAfter ⟨[0, 1], [], [(0, [⟨0, .cst 7, []⟩]), (1, [⟨1, .cst 9, []⟩])]⟩
          (fun n => n + 100) id 1).steps (([0, 1] : List Nat)[j]) =
        some (.var (([0, 1] : List Nat)[j] + 100))) ∧
    (∀ i (hi : i < ([0, 1] : List Nat).length), i < 1 →
      lookupA ([] : List (Nat × Expr)) (([0, 1] : List Nat)[i]) = none →
      ∀ c, ((lookupA [(0, [(⟨0, .cst 7, []⟩ : Candidate)]),
          (1, [⟨1, .cst 9, []⟩])] (([0, 1] : List Nat)[i])).getD []).getLast? = some c →
        lookupA (stAfter ⟨[0, 1], [], [(0, [⟨0, .cst 7, []⟩]), (1, [⟨1, .cst 9, []⟩])]⟩
            (fun n => n + 100) id 1).steps (([0, 1] : List Nat)[i]) =
          some (id (substVar (stAfter ⟨[0, 1], [], [(0, [⟨0, .cst 7, []⟩]),
            (1, [⟨1, .cst 9, []⟩])]⟩ (fun n => n + 100) id i).steps c.step)))) :=
  ⟨⟨by decide, by decide⟩,
   posterior_table_invariant ⟨[0, 1], [], [(0, [⟨0, .cst 7, []⟩]), (1, [⟨1, .cst 9, []⟩])]⟩
     (fun n => n + 100) id (by decide) 1 (by decide)⟩

/-- C6: for every latent node with at least one registered candidate the
orchestrator resolves the node using exactly the most recently
registered (last) candidate, and the remaining candidates have no
effect: two candidate tables agreeing on each output node's last
candidate produce identical results (step mapping, update mapping and
placeholder mapping alike). -/
theorem last_candidate_selected (G : IRGraph) (samplers2 : List (Nat × List Candidate))
    (clone : Nat → Nat) (nz : Expr → Expr) (nto : Nat → Nat) (hnd : G.outputs.Nodup)
    (hlast : ∀ rv ∈ G.outputs, ((lookupA G.samplers rv).getD []).getLast? =
      ((lookupA samplers2 rv).getD []).getLast?) :
    (∀ i (hi : i < G.outputs.length), lookupA G.obs (G.outputs[i]) = none →
      ∀ c, ((lookupA G.samplers (G.outputs[i])).getD []).getLast? = some c →
        lookupA (finState G clone nz).steps (G.outputs[i]) =
          some (nz (substVar (stAfter G clone nz i).steps c.step))) ∧
    constructSampler { G with samplers := samplers2 } clone nz nto =
      constructSampler G clone nz nto := by
  constructor
  · intro i hi hobs c hc
    rw [finState_eq_stAfter]
    exact steps_resolved G clone nz hnd i hi hobs c hc G.outputs.length hi (le_refl _)
  · obtain ⟨hs, hu, hm⟩ := foldl_processRV_congr G.obs nz G.outputs hnd
      (initState { G with samplers := samplers2 } clone) (initState G clone) rfl rfl rfl
      (fun rv hrv => (hlast rv hrv).symm)
    have hs2 : (finState { G with samplers := samplers2 } clone nz).steps =
        (finState G clone nz).steps := hs
    have hu2 : (finState { G with samplers := samplers2 } clone nz).updates =
        (finState G clone nz).updates := hu
    have hm2 : (finState { G with samplers := samplers2 } clone nz).missing =
        (finState G clone nz).missing := hm
    simp only [constructSampler]
    rw [hs2, hu2, hm2]
    rfl

/-- C6 witness: two tables with the same last candidate for node 0 but a
different earlier candidate produce the same synthesis result. -/
theorem last_candidate_selected_witness :
    (([0] : List Nat).Nodup ∧
      ∀ rv ∈ ([0] : List Nat),
        ((lookupA [(0, [(⟨0, .cst 1, []⟩ : Candidate), ⟨1, .cst 7, []⟩])] rv).getD
          []).getLast? =
        ((lookupA [(0, [(⟨2, .cst 9, []⟩ : Candidate), ⟨1, .cst 7, []⟩])] rv).getD
          []).getLast?) ∧
    ((∀ i (hi : i < ([0] : List Nat).length),
      lookupA ([] : List (Nat × Expr)) (([0] : List Nat)[i]) = none →
      ∀ c, ((lookupA [(0, [(⟨0, .cst 1, []⟩ : Candidate), ⟨1, .cst 7, []⟩])]
          (([0] : List Nat)[i])).getD []).getLast? = some c →
        lookupA (finState ⟨[0], [], [(0, [⟨0, .cst 1, []⟩, ⟨1, .cst 7, []⟩])]⟩
            (fun n => n + 100) id).steps (([0] : List Nat)[i]) =
          some (id (substVar (stAfter ⟨[0], [], [(0, [⟨0, .cst 1, []⟩, ⟨1, .cst 7, []⟩])]⟩
            (fun n => n + 100) id i).steps c.step))) ∧
    constructSampler ⟨[0], [], [(0, [⟨2, .cst 9, []⟩, ⟨1, .cst 7, []⟩])]⟩
        (fun n => n + 100) id (fun n => n + 1000) =
      constructSampler ⟨[0], [], [(0, [⟨0, .cst 1, []⟩, ⟨1, .cst 7, []⟩])]⟩
        (fun n => n + 100) id (fun n => n + 1000)) :=
  ⟨⟨by decide, by decide⟩,
   last_candidate_selected ⟨[0], [], [(0, [⟨0, .cst 1, []⟩, ⟨1, .cst 7, []⟩])]⟩
     [(0, [⟨2, .cst 9, []⟩, ⟨1, .cst 7, []⟩])] (fun n => n + 100) id
     (fun n => n + 1000) (by decide) (by decide)⟩

/-- C8: on success, the returned step mapping contains an entry (keyed
through the new-to-old identity map) for every latent output node —
in particular every latent node that had at least one registered
candidate — and contains no entry for any observed node. -/
theorem step_mapping_coverage (G : IRGraph) (clone : Nat → Nat) (nz : Expr → Expr)
    (nto : Nat → Nat) (hnd : G.outputs.Nodup)
    (hinj : ∀ a b : Nat, nto a = nto b → a = b)
    (r : List (Nat × Expr) × List (Expr × Expr) × List (Nat × Expr))
    (hr : constructSampler G clone nz nto = .ok r) :
    (∀ rv ∈ G.outputs, lookupA G.obs rv = none →
      (lookupA G.samplers rv).getD [] ≠ [] → (lookupA r.1 (nto rv)).isSome) ∧
    (∀ rv, (lookupA G.obs rv).isSome → lookupA r.1 (nto rv) = none) := by
  obtain ⟨hmiss, hreq⟩ := (constructSampler_ok_iff G clone nz nto r).1 hr
  subst hreq
  constructor
  · intro rv hout hobs _hc
    rw [result_first_lookup G clone nz nto hinj rv]
    simp only [hobs, Option.isNone_none, if_pos]
    have hinit : (lookupA (initSteps G clone) rv).isSome := by
      rw [lookupA_initSteps_latent G clone hnd rv hobs hout]
      rfl
    exact foldl_steps_isSome G.obs nz G.outputs (initState G clone) rv hinit
  · intro rv hobs
    rw [result_first_lookup G clone nz nto hinj rv]
    cases hv : lookupA G.obs rv with
    | none =>
        rw [hv] at hobs
        simp at hobs
    | some v => simp [hv]

/-- C8 witness: one latent node with a candidate and one observed node. -/
theorem step_mapping_coverage_witness :
    (([0, 1] : List Nat).Nodup ∧ (∀ a b : Nat, a + 1000 = b + 1000 → a = b) ∧
      constructSampler ⟨[0, 1], [(1, .cst 5)], [(0, [⟨0, .cst 7, []⟩])]⟩
        (fun n => n + 100) id (fun n => n + 1000) =
        .ok ([(1000, .cst 7)], [], [(1000, .var 100)])) ∧
    ((∀ rv ∈ ([0, 1] : List Nat),
      lookupA ([(1, Expr.cst 5)] : List (Nat × Expr)) rv = none →
      (lookupA [(0, [(⟨0, .cst 7, []⟩ : Candidate)])] rv).getD [] ≠ [] →
      (lookupA ([(1000, Expr.cst 7)] : List (Nat × Expr)) (rv + 1000)).isSome) ∧
    (∀ rv : Nat, (lookupA ([(1, Expr.cst 5)] : List (Nat × Expr)) rv).isSome →
      lookupA ([(1000, Expr.cst 7)] : List (Nat × Expr)) (rv + 1000) = none)) :=
  ⟨⟨by decide, fun a b h => Nat.add_right_cancel h, rfl⟩,
   step_mapping_coverage ⟨[0, 1], [(1, .cst 5)], [(0, [⟨0, .cst 7, []⟩])]⟩
     (fun n => n + 100) id (fun n => n + 1000) (by decide)
     (fun a b h => Nat.add_right_cancel h)
     ([(1000, .cst 7)], [], [(1000, .var 100)]) rfl⟩

/-- C9: a node bound in the observed mapping is never treated as latent:
it gets no initial-value placeholder, its substitution-table entry is
its observation node at every point of the loop (it is never given a
sampler step), it is never recorded as unresolved in the failure set,
and on success its identity appears neither in the returned step
mapping nor in the returned placeholder mapping. -/
theorem observed_never_latent (G : IRGraph) (clone : Nat → Nat) (nz : Expr → Expr)
    (nto : Nat → Nat) (hnd : G.outputs.Nodup) (hobsnd : (G.obs.map Prod.fst).Nodup)
    (hinj : ∀ a b : Nat, nto a = nto b → a = b) (rv : Nat) (v : Expr)
    (hobs : lookupA G.obs rv = some v) :
    lookupA (rvsToInitVals G clone) rv = none ∧
    (∀ k, k ≤ G.outputs.length → lookupA (stAfter G clone nz k).steps rv = some v) ∧
    (∀ es, constructSampler G clone nz nto = .error es → rv ∉ es) ∧
    (∀ r, constructSampler G clone nz nto = .ok r →
      lookupA r.1 (nto rv) = none ∧ lookupA r.2.2 (nto rv) = none) := by
  have hsome : (lookupA G.obs rv).isSome := by simp [hobs]
  refine ⟨?_, ?_, ?_, ?_⟩
  · rw [lookupA_rvsToInitVals G clone hnd rv, if_neg]
    intro hm
    have hp := (List.mem_filter.1 hm).2
    rw [hobs] at hp
    simp at hp
  · intro k hk
    rw [steps_stable G clone nz k hk rv (Or.inr hsome)]
    exact lookupA_initSteps_obs G clone hobsnd rv v hobs
  · intro es hes
    obtain ⟨hne, hesq⟩ := (constructSampler_error_iff G clone nz nto es).1 hes
    subst hesq
    rw [finState_missing_iff G clone nz hnd rv]
    rintro ⟨hout, hobs2, hc⟩
    rw [hobs] at hobs2
    exact Option.noConfusion hobs2
  · intro r hr
    obtain ⟨hmiss, hreq⟩ := (constructSampler_ok_iff G clone nz nto r).1 hr
    subst hreq
    constructor
    · rw [result_first_lookup G clone nz nto hinj rv]
      simp [hobs]
    · rw [result_third_lookup G clone nto hnd hinj rv, if_neg]
      intro hm
      have hp := (List.mem_filter.1 hm).2
      rw [hobs] at hp
      simp at hp

/-- C9 witness: observed node 1 with observation `cst 5`. -/
theorem observed_never_latent_witness :
    (([0, 1] : List Nat).Nodup ∧
      (([(1, Expr.cst 5)] : List (Nat × Expr)).map Prod.fst).Nodup ∧
      (∀ a b : Nat, a + 1000 = b + 1000 → a = b) ∧
      lookupA ([(1, Expr.cst 5)] : List (Nat × Expr)) 1 = some (.cst 5)) ∧
    (lookupA (rvsToInitVals ⟨[0, 1], [(1, .cst 5)], [(0, [⟨0, .cst 7, []⟩])]⟩
        (fun n => n + 100)) 1 = none ∧
    (∀ k, k ≤ ([0, 1] : List Nat).length →
      lookupA (stAfter ⟨[0, 1], [(1, .cst 5)], [(0, [⟨0, .cst 7, []⟩])]⟩
        (fun n => n + 100) id k).steps 1 = some (.cst 5)) ∧
    (∀ es, constructSampler ⟨[0, 1], [(1, .cst 5)], [(0, [⟨0, .cst 7, []⟩])]⟩
        (fun n => n + 100) id (fun n => n + 1000) = .error es → 1 ∉ es) ∧
    (∀ r, constructSampler ⟨[0, 1], [(1, .cst 5)], [(0, [⟨0, .cst 7, []⟩])]⟩
        (fun n => n + 100) id (fun n => n + 1000) = .ok r →
      lookupA r.1 1001 = none ∧ lookupA r.2.2 1001 = none)) :=
  ⟨⟨by decide, by decide, fun a b h => Nat.add_right_cancel h, by decide⟩,
   observed_never_latent ⟨[0, 1], [(1, .cst 5)], [(0, [⟨0, .cst 7, []⟩])]⟩
     (fun n => n + 100) id (fun n => n + 1000) (by decide) (by decide)
     (fun a b h => Nat.add_right_cancel h) 1 (.cst 5) (by decide)⟩

/-- C7: one call of `construct_sampler`, with the caller-visible state
(the caller's observed mapping and the fresh-symbol counter) threaded
explicitly, has no observable side effect beyond fresh-symbol
allocation: the caller's observed mapping is returned untouched and
the only state change is that the fresh counter has advanced.  The
graph, the tracker and the per-step subgraphs live only inside the
call (the builder returns a fresh canonical graph, per the spec). -/
theorem call_no_side_effects (irb : IRBuilder) (nz : Expr → Expr) (s : CallState)
    (hirb : ∀ (obs : List (Nat × Expr)) (f : Nat), f ≤ (irb.build obs f).2.2) :
    (constructSamplerCall irb nz s).2.callerObs = s.callerObs ∧
    s.fresh ≤ (constructSamplerCall irb nz s).2.fresh := by
  refine ⟨rfl, ?_⟩
  have h1 : s.fresh ≤ (irb.build s.callerObs s.fresh).2.2 := hirb s.callerObs s.fresh
  have h2 := le_foldl_max (fun rv => (irb.build s.callerObs s.fresh).2.2 + rv + 1)
    (irb.build s.callerObs s.fresh).1.outputs (irb.build s.callerObs s.fresh).2.2
  exact le_trans h1 h2

/-- C7 witness: a concrete builder that returns an empty graph and does
not move the counter backwards. -/
theorem call_no_side_effects_witness :
    (∀ (obs : List (Nat × Expr)) (f : Nat),
      f ≤ ((⟨fun obs f => (⟨[], obs, []⟩, id, f)⟩ : IRBuilder).build obs f).2.2) ∧
    ((constructSamplerCall ⟨fun obs f => (⟨[], obs, []⟩, id, f)⟩ id
        ⟨[(0, .cst 5)], 7⟩).2.callerObs = [(0, .cst 5)] ∧
     7 ≤ (constructSamplerCall ⟨fun obs f => (⟨[], obs, []⟩, id, f)⟩ id
        ⟨[(0, .cst 5)], 7⟩).2.fresh) :=
  ⟨fun obs f => le_refl f,
   call_no_side_effects ⟨fun obs f => (⟨[], obs, []⟩, id, f)⟩ id ⟨[(0, .cst 5)], 7⟩
     (fun obs f => le_refl f)⟩

/-- C10: `construct_sampler` never mutates the dictionary the caller
passes as `obs_rvs_to_values`: in the state-threaded embedding the
caller's dictionary after the call is exactly the dictionary passed in
(same key-value pairs, same order), whether the call succeeds or fails
— the orchestrator rebinds its local name to the builder's re-expressed
mapping and thereafter only reads it. -/
theorem caller_obs_dict_preserved (irb : IRBuilder) (nz : Expr → Expr) (s : CallState) :
    (constructSamplerCall irb nz s).2.callerObs = s.callerObs ∧
    ∀ x : Nat, lookupA (constructSamplerCall irb nz s).2.callerObs x =
      lookupA s.callerObs x :=
  ⟨rfl, fun x => rfl⟩
